import Mathlib

/-!
Verification of `script/utils/count_tex_words.py`: a LaTeX word-count tool.

Text content is modelled as `List Char`; file paths as `String`.  Each Python
regular-expression substitution is embedded as an executable recursive
function with the same scanning semantics (leftmost match, non-greedy span
where the pattern is non-greedy, scan resumes after each match, a failed
match attempt advances by one character).  The scanning functions recurse on
an explicit length bound so that they are structural (and hence evaluate
inside the kernel); the bound is invisible in the wrapper definitions, and
the natural one-step unfolding equations are proved below each wrapper.
-/

/-- ASCII letter, the character class `[a-zA-Z]` of the source's regexes. -/
def isAsciiLetter (c : Char) : Bool :=
  ('a'.toNat ≤ c.toNat && c.toNat ≤ 'z'.toNat) || ('A'.toNat ≤ c.toNat && c.toNat ≤ 'Z'.toNat)

/-- CJK Unified Ideographs range `[一-鿿]` used by `count_words_in_content`. -/
def isCJK (c : Char) : Bool :=
  0x4e00 ≤ c.toNat && c.toNat ≤ 0x9fff

/-- Python's `\s` whitespace class (space, tab, newline, carriage return,
form feed, vertical tab), as used by `[^\w\s]` and `str.split()`. -/
def isSpaceChar (c : Char) : Bool :=
  c = ' ' || c = '\t' || c = '\n' || c = '\r' || c = '\x0b' || c = '\x0c'

/-- Python's `\w` word class, over the character ranges the program
distinguishes: ASCII alphanumerics, underscore, and CJK ideographs. -/
def isWordChar (c : Char) : Bool :=
  c.isAlphanum || c = '_' || isCJK c

theorem dropWhile_length_le {α : Type} (p : α → Bool) (l : List α) :
    (l.dropWhile p).length ≤ l.length := by
  induction l with
  | nil => simp [List.dropWhile]
  | cons c rest ih =>
    rw [List.dropWhile]
    split
    · exact le_trans ih (by simp)
    · simp

/-- Length-bounded worker for `stripComments`. -/
def stripCommentsAux : Nat → List Char → List Char
  | 0, _ => []
  | _ + 1, [] => []
  | n + 1, c :: rest =>
    if c = '%' then stripCommentsAux n (rest.dropWhile (fun d => d ≠ '\n'))
    else c :: stripCommentsAux n rest

/-- Comment removal `re.sub(r'%.*', '', content)`: from every `%` drop the rest of the line
(the terminating newline, if any, is kept). -/
def stripComments (l : List Char) : List Char := stripCommentsAux l.length l

theorem stripCommentsAux_eq : ∀ (n m : Nat) (l : List Char), l.length ≤ n → l.length ≤ m →
    stripCommentsAux n l = stripCommentsAux m l := by
  intro n
  induction n with
  | zero =>
    intro m l h1 _
    have hl : l = [] := List.length_eq_zero.mp (Nat.le_zero.mp h1)
    subst hl
    cases m <;> rfl
  | succ n ih =>
    intro m l h1 h2
    cases l with
    | nil => cases m <;> rfl
    | cons c rest =>
      cases m with
      | zero => simp at h2
      | succ m =>
        simp only [List.length_cons, Nat.add_le_add_iff_right] at h1 h2
        simp only [stripCommentsAux]
        by_cases hc : c = '%'
        · rw [if_pos hc, if_pos hc]
          exact ih m _ (le_trans (dropWhile_length_le _ _) h1)
            (le_trans (dropWhile_length_le _ _) h2)
        · rw [if_neg hc, if_neg hc, ih m rest h1 h2]

theorem stripComments_nil : stripComments [] = [] := rfl

theorem stripComments_cons (c : Char) (rest : List Char) :
    stripComments (c :: rest)
      = if c = '%' then stripComments (rest.dropWhile (fun d => d ≠ '\n'))
        else c :: stripComments rest := by
  show stripCommentsAux (rest.length + 1) (c :: rest) = _
  simp only [stripCommentsAux]
  by_cases hc : c = '%'
  · rw [if_pos hc, if_pos hc]
    exact stripCommentsAux_eq _ _ _ (dropWhile_length_le _ _) (le_refl _)
  · rw [if_neg hc, if_neg hc]
    rfl

/-- Search for the closing token `cl` of a non-greedy span: returns the text
after the first occurrence of `cl`, or `none` when there is none (or, in
non-DOTALL mode, when a newline intervenes first). -/
def findClose (cl : List Char) (dotall : Bool) : List Char → Option (List Char)
  | [] => none
  | c :: rest =>
    if cl.isPrefixOf (c :: rest) then some ((c :: rest).drop cl.length)
    else if !dotall && c = '\n' then none
    else findClose cl dotall rest

theorem findClose_length_le {cl : List Char} {dotall : Bool} :
    ∀ {l r : List Char}, findClose cl dotall l = some r → r.length ≤ l.length := by
  intro l
  induction l with
  | nil => intro r h; simp [findClose] at h
  | cons c rest ih =>
    intro r h
    rw [findClose] at h
    split at h
    · cases h
      simp [List.length_drop]
    · split at h
      · cases h
      · exact le_trans (ih h) (by simp)

theorem findClose_mem {cl : List Char} {dotall : Bool} :
    ∀ {l r : List Char}, findClose cl dotall l = some r → ∀ {c}, c ∈ r → c ∈ l := by
  intro l
  induction l with
  | nil => intro r h; simp [findClose] at h
  | cons c rest ih =>
    intro r h d hd
    rw [findClose] at h
    split at h
    · cases h
      exact (List.drop_subset _ _) hd
    · split at h
      · cases h
      · exact List.mem_cons_of_mem _ (ih h hd)

/-- Length-bounded worker for `removeSpans`. -/
def removeSpansAux (o : Char) (opRest cl : List Char) (dotall : Bool) : Nat → List Char → List Char
  | 0, _ => []
  | _ + 1, [] => []
  | n + 1, c :: rest =>
    if (o :: opRest).isPrefixOf (c :: rest) then
      match findClose cl dotall (rest.drop opRest.length) with
      | some rem => removeSpansAux o opRest cl dotall n rem
      | none => c :: removeSpansAux o opRest cl dotall n rest
    else c :: removeSpansAux o opRest cl dotall n rest

/-- Span removal `re.sub(op ++ nonGreedyAny ++ cl, '', text)`: repeatedly delete the
leftmost shortest span running from the opening token `o :: opRest` through
the closing token `cl`.  A failed match attempt advances one character, as
the regex engine does. -/
def removeSpans (o : Char) (opRest cl : List Char) (dotall : Bool) (l : List Char) : List Char :=
  removeSpansAux o opRest cl dotall l.length l

theorem removeSpansAux_eq (o : Char) (opRest cl : List Char) (dotall : Bool) :
    ∀ (n m : Nat) (l : List Char), l.length ≤ n → l.length ≤ m →
    removeSpansAux o opRest cl dotall n l = removeSpansAux o opRest cl dotall m l := by
  intro n
  induction n with
  | zero =>
    intro m l h1 _
    have hl : l = [] := List.length_eq_zero.mp (Nat.le_zero.mp h1)
    subst hl
    cases m <;> rfl
  | succ n ih =>
    intro m l h1 h2
    cases l with
    | nil => cases m <;> rfl
    | cons c rest =>
      cases m with
      | zero => simp at h2
      | succ m =>
        simp only [List.length_cons, Nat.add_le_add_iff_right] at h1 h2
        simp only [removeSpansAux]
        by_cases hp : (o :: opRest).isPrefixOf (c :: rest) = true
        · rw [if_pos hp, if_pos hp]
          cases hfc : findClose cl dotall (rest.drop opRest.length) with
          | some rem =>
            have hr : rem.length ≤ rest.length :=
              le_trans (findClose_length_le hfc) (by simp [List.length_drop])
            exact ih m rem (le_trans hr h1) (le_trans hr h2)
          | none => rw [ih m rest h1 h2]
        · rw [if_neg hp, if_neg hp, ih m rest h1 h2]

theorem removeSpans_nil (o : Char) (opRest cl : List Char) (dotall : Bool) :
    removeSpans o opRest cl dotall [] = [] := rfl

theorem removeSpans_cons (o : Char) (opRest cl : List Char) (dotall : Bool)
    (c : Char) (rest : List Char) :
    removeSpans o opRest cl dotall (c :: rest)
      = if (o :: opRest).isPrefixOf (c :: rest) then
          match findClose cl dotall (rest.drop opRest.length) with
          | some rem => removeSpans o opRest cl dotall rem
          | none => c :: removeSpans o opRest cl dotall rest
        else c :: removeSpans o opRest cl dotall rest := by
  show removeSpansAux o opRest cl dotall (rest.length + 1) (c :: rest) = _
  simp only [removeSpansAux]
  by_cases hp : (o :: opRest).isPrefixOf (c :: rest) = true
  · rw [if_pos hp, if_pos hp]
    cases hfc : findClose cl dotall (rest.drop opRest.length) with
    | some rem =>
      exact removeSpansAux_eq o opRest cl dotall _ _ rem
        (le_trans (findClose_length_le hfc) (by simp [List.length_drop])) (le_refl _)
    | none => rfl
  · rw [if_neg hp, if_neg hp]
    rfl

/-- Whether a list starts with an ASCII letter. -/
def headLetter : List Char → Bool
  | [] => false
  | d :: _ => isAsciiLetter d

/-- Length-bounded worker for `stripCommands`. -/
def stripCommandsAux : Nat → List Char → List Char
  | 0, _ => []
  | _ + 1, [] => []
  | n + 1, c :: rest =>
    if c = '\\' && headLetter rest then ' ' :: stripCommandsAux n (rest.dropWhile isAsciiLetter)
    else c :: stripCommandsAux n rest

/-- Generic command removal `re.sub(r'\\[a-zA-Z]+', ' ', content)`: replace each backslash followed
by a maximal nonempty run of ASCII letters with a single space. -/
def stripCommands (l : List Char) : List Char := stripCommandsAux l.length l

theorem stripCommandsAux_eq : ∀ (n m : Nat) (l : List Char), l.length ≤ n → l.length ≤ m →
    stripCommandsAux n l = stripCommandsAux m l := by
  intro n
  induction n with
  | zero =>
    intro m l h1 _
    have hl : l = [] := List.length_eq_zero.mp (Nat.le_zero.mp h1)
    subst hl
    cases m <;> rfl
  | succ n ih =>
    intro m l h1 h2
    cases l with
    | nil => cases m <;> rfl
    | cons c rest =>
      cases m with
      | zero => simp at h2
      | succ m =>
        simp only [List.length_cons, Nat.add_le_add_iff_right] at h1 h2
        simp only [stripCommandsAux]
        by_cases hc : (c = '\\' && headLetter rest) = true
        · rw [if_pos hc, if_pos hc]
          exact congrArg _ (ih m _ (le_trans (dropWhile_length_le _ _) h1)
            (le_trans (dropWhile_length_le _ _) h2))
        · rw [if_neg hc, if_neg hc, ih m rest h1 h2]

theorem stripCommands_nil : stripCommands [] = [] := rfl

theorem stripCommands_cons (c : Char) (rest : List Char) :
    stripCommands (c :: rest)
      = if c = '\\' && headLetter rest then ' ' :: stripCommands (rest.dropWhile isAsciiLetter)
        else c :: stripCommands rest := by
  show stripCommandsAux (rest.length + 1) (c :: rest) = _
  simp only [stripCommandsAux]
  by_cases hc : (c = '\\' && headLetter rest) = true
  · rw [if_pos hc, if_pos hc]
    exact congrArg _ (stripCommandsAux_eq _ _ _ (dropWhile_length_le _ _) (le_refl _))
  · rw [if_neg hc, if_neg hc]
    rfl

/-- A brace character becomes a space, anything else is unchanged. -/
def braceChar (c : Char) : Char :=
  if c = '\x7b' || c = '\x7d' then ' ' else c

/-- Brace replacement `content.replace('{', ' ').replace('}', ' ')`. -/
def braceToSpace (l : List Char) : List Char :=
  l.map braceChar

/-- The `ignored_commands` list of the source, in source order. -/
def ignored_commands : List String :=
  ["cite", "ref", "label", "usepackage", "input", "include",
   "bibliography", "bibliographystyle", "documentclass", "pagestyle",
   "thispagestyle", "vskip", "vspace", "hspace", "setlength", "setcounter"]

/-- The cleaning pipeline `clean_tex_content`: comments, then display math `\[...\]`, `$$...$$`,
inline math `$...$` (line-local), then each listed command with its brace
argument, then generic command names, then brace characters. -/
def clean_tex_content (content : List Char) : List Char :=
  let c1 := stripComments content
  let c2 := removeSpans '\\' ['['] ['\\', ']'] true c1
  let c3 := removeSpans '$' ['$'] ['$', '$'] true c2
  let c4 := removeSpans '$' [] ['$'] false c3
  let c5 := ignored_commands.foldl
    (fun acc cmd => removeSpans '\\' (cmd.toList ++ ['\x7b']) ['\x7d'] true acc) c4
  let c6 := stripCommands c5
  braceToSpace c6

/-- Token counter for `str.split()`: counts maximal runs of non-whitespace. -/
def countTokensAux : List Char → Bool → Nat
  | [], _ => 0
  | c :: rest, inTok =>
    if isSpaceChar c then countTokensAux rest false
    else (if inTok then 0 else 1) + countTokensAux rest true

/-- Token count `len(s.split())`. -/
def countTokens (l : List Char) : Nat := countTokensAux l false

/-- The counting applied by `count_words_in_content` after cleaning:
CJK character count, and English tokens of the text with CJK characters
replaced by spaces and punctuation (`[^\w\s]`) removed. -/
def rawCounts (cleaned : List Char) : Nat × Nat :=
  let numChinese := (cleaned.filter isCJK).length
  let noChinese := cleaned.map (fun c => if isCJK c then ' ' else c)
  let noPunct := noChinese.filter (fun c => isWordChar c || isSpaceChar c)
  (numChinese, countTokens noPunct)

/-- The counter `count_words_in_content(content)` returns `(num_chinese, num_english)`. -/
def count_words_in_content (content : List Char) : Nat × Nat :=
  rawCounts (clean_tex_content content)

/-- One step of `[^}]+\}`: split off a nonempty brace-argument at the first
closing brace, returning the argument and the text after the brace. -/
def splitAtBrace : List Char → Option (List Char × List Char)
  | [] => none
  | c :: rest =>
    if c = '\x7d' then some ([], rest)
    else
      match splitAtBrace rest with
      | some (a, r) => some (c :: a, r)
      | none => none

theorem splitAtBrace_length : ∀ {l : List Char} {a r : List Char},
    splitAtBrace l = some (a, r) → r.length < l.length := by
  intro l
  induction l with
  | nil => intro a r h; simp [splitAtBrace] at h
  | cons c rest ih =>
    intro a r h
    rw [splitAtBrace] at h
    split at h
    · cases h; simp
    · revert h
      split
      · intro h
        cases h
        next heq => exact Nat.lt_succ_of_lt (ih heq)
      · intro h; cases h

/-- Length-bounded worker for `findInputs`. -/
def findInputsAux : Nat → List Char → List (List Char)
  | 0, _ => []
  | _ + 1, [] => []
  | n + 1, c :: rest =>
    if ("\\input\x7b".toList).isPrefixOf (c :: rest) then
      match splitAtBrace ((c :: rest).drop 7) with
      | some (a, r) => if a = [] then findInputsAux n rest else a :: findInputsAux n r
      | none => findInputsAux n rest
    else if ("\\include\x7b".toList).isPrefixOf (c :: rest) then
      match splitAtBrace ((c :: rest).drop 9) with
      | some (a, r) => if a = [] then findInputsAux n rest else a :: findInputsAux n r
      | none => findInputsAux n rest
    else findInputsAux n rest

/-- Include extraction `re.findall` of the include pattern: the arguments of
all include directives, in source order. -/
def findInputs (l : List Char) : List (List Char) := findInputsAux l.length l

theorem splitAtBrace_drop_le {c : Char} {rest : List Char} {k : Nat} {a r : List Char}
    (h : splitAtBrace ((c :: rest).drop (k + 1)) = some (a, r)) : r.length ≤ rest.length := by
  have h1 := splitAtBrace_length h
  simp only [List.length_drop, List.length_cons] at h1
  omega

theorem findInputsAux_eq : ∀ (n m : Nat) (l : List Char), l.length ≤ n → l.length ≤ m →
    findInputsAux n l = findInputsAux m l := by
  intro n
  induction n with
  | zero =>
    intro m l h1 _
    have hl : l = [] := List.length_eq_zero.mp (Nat.le_zero.mp h1)
    subst hl
    cases m <;> rfl
  | succ n ih =>
    intro m l h1 h2
    cases l with
    | nil => cases m <;> rfl
    | cons c rest =>
      cases m with
      | zero => simp at h2
      | succ m =>
        simp only [List.length_cons, Nat.add_le_add_iff_right] at h1 h2
        simp only [findInputsAux]
        by_cases hp1 : ("\\input\x7b".toList).isPrefixOf (c :: rest) = true
        · rw [if_pos hp1, if_pos hp1]
          cases hsp : splitAtBrace ((c :: rest).drop 7) with
          | some ar =>
            obtain ⟨a, r⟩ := ar
            dsimp only
            have hr : r.length ≤ rest.length := splitAtBrace_drop_le hsp
            by_cases ha : a = []
            · rw [if_pos ha, if_pos ha, ih m rest h1 h2]
            · rw [if_neg ha, if_neg ha, ih m r (le_trans hr h1) (le_trans hr h2)]
          | none => rw [ih m rest h1 h2]
        · rw [if_neg hp1, if_neg hp1]
          by_cases hp2 : ("\\include\x7b".toList).isPrefixOf (c :: rest) = true
          · rw [if_pos hp2, if_pos hp2]
            cases hsp : splitAtBrace ((c :: rest).drop 9) with
            | some ar =>
              obtain ⟨a, r⟩ := ar
              dsimp only
              have hr : r.length ≤ rest.length := splitAtBrace_drop_le hsp
              by_cases ha : a = []
              · rw [if_pos ha, if_pos ha, ih m rest h1 h2]
              · rw [if_neg ha, if_neg ha, ih m r (le_trans hr h1) (le_trans hr h2)]
            | none => rw [ih m rest h1 h2]
          · rw [if_neg hp2, if_neg hp2, ih m rest h1 h2]

theorem findInputs_nil : findInputs [] = [] := rfl

theorem findInputs_cons (c : Char) (rest : List Char) :
    findInputs (c :: rest)
      = if ("\\input\x7b".toList).isPrefixOf (c :: rest) then
          match splitAtBrace ((c :: rest).drop 7) with
          | some (a, r) => if a = [] then findInputs rest else a :: findInputs r
          | none => findInputs rest
        else if ("\\include\x7b".toList).isPrefixOf (c :: rest) then
          match splitAtBrace ((c :: rest).drop 9) with
          | some (a, r) => if a = [] then findInputs rest else a :: findInputs r
          | none => findInputs rest
        else findInputs rest := by
  show findInputsAux (rest.length + 1) (c :: rest) = _
  simp only [findInputsAux]
  by_cases hp1 : ("\\input\x7b".toList).isPrefixOf (c :: rest) = true
  · rw [if_pos hp1, if_pos hp1]
    cases hsp : splitAtBrace ((c :: rest).drop 7) with
    | some ar =>
      obtain ⟨a, r⟩ := ar
      dsimp only
      by_cases ha : a = []
      · rw [if_pos ha, if_pos ha]
        rfl
      · rw [if_neg ha, if_neg ha,
          findInputsAux_eq _ _ r (splitAtBrace_drop_le hsp) (le_refl _)]
        rfl
    | none => rfl
  · rw [if_neg hp1, if_neg hp1]
    by_cases hp2 : ("\\include\x7b".toList).isPrefixOf (c :: rest) = true
    · rw [if_pos hp2, if_pos hp2]
      cases hsp : splitAtBrace ((c :: rest).drop 9) with
      | some ar =>
        obtain ⟨a, r⟩ := ar
        dsimp only
        by_cases ha : a = []
        · rw [if_pos ha, if_pos ha]
          rfl
        · rw [if_neg ha, if_neg ha,
            findInputsAux_eq _ _ r (splitAtBrace_drop_le hsp) (le_refl _)]
          rfl
      | none => rfl
    · rw [if_neg hp2, if_neg hp2]
      rfl

/-- A file-system model: the set of canonical paths of existing files, a
canonicalisation map (`Path.resolve`), per-file contents keyed by canonical
path, a possible read failure per canonical path (the `except` branch), and
`base_path.parent / input_path` joining. -/
structure FS where
  domain : List String
  resolve : String → String
  content : String → List Char
  readErr : String → Option String
  joinParent : String → String → String

/-- Existence `Path.exists()`: a path exists when its canonical form is a file. -/
def FS.found (fs : FS) (p : String) : Prop := fs.resolve p ∈ fs.domain

instance (fs : FS) (p : String) : Decidable (fs.found p) :=
  inferInstanceAs (Decidable (fs.resolve p ∈ fs.domain))

/-- The test `input_path.endswith('.tex')`, as a suffix test on the characters. -/
def endsWithTex (s : String) : Bool := (".tex".toList).isSuffixOf s.toList

/-- Handle missing extension: the include target with `.tex` appended
exactly when it is not already present. -/
def texCandidate (input_path : String) : String :=
  if endsWithTex input_path then input_path else input_path ++ ".tex"

/-- The resolver `resolve_path(base_path, input_path)`: append `.tex` when missing, try
the working-directory candidate, then the candidate relative to the
referring file, else return the working-directory candidate unresolved. -/
def resolve_path (fs : FS) (base_path : Option String) (input_path : String) : String :=
  let ip := texCandidate input_path
  if fs.found ip then ip
  else
    match base_path with
    | some bp =>
      let pRel := fs.joinParent bp ip
      if fs.found pRel then pRel else ip
    | none => ip

/-- The tree node built by `process_file`: path as referenced, own counts,
stored total, optional error, children in source order. -/
inductive Node where
  | mk : String → Nat → Nat → Nat → Option String → List Node → Node

def Node.path : Node → String
  | Node.mk p _ _ _ _ _ => p

def Node.cn : Node → Nat
  | Node.mk _ cn _ _ _ _ => cn

def Node.en : Node → Nat
  | Node.mk _ _ en _ _ _ => en

def Node.total : Node → Nat
  | Node.mk _ _ _ t _ _ => t

def Node.error : Node → Option String
  | Node.mk _ _ _ _ e _ => e

def Node.children : Node → List Node
  | Node.mk _ _ _ _ _ ch => ch

/-- The `for inp in inputs` loop of `process_file`, parameterised by the
recursive call `rec` at the current fuel: resolve each include, recurse,
and append a child exactly when the recursive call returned a node. -/
def processChildrenAux (fs : FS) (rec : String → List String → Option (Option Node × List String))
    (fp : String) : List (List Char) → List String → Option (List Node × List String)
  | [], processed => some ([], processed)
  | inp :: rest, processed =>
    let child_path := resolve_path fs (some fp) (String.mk inp)
    match rec child_path processed with
    | none => none
    | some (childNode, processed1) =>
      match processChildrenAux fs rec fp rest processed1 with
      | none => none
      | some (ns, processed2) =>
        match childNode with
        | some c => some (c :: ns, processed2)
        | none => some (ns, processed2)

/-- The builder `process_file(file_path, processed_files)`, with explicit fuel: the
outer `none` means the fuel ran out, `some (none, s)` is the already-visited
absence, `some (some n, s)` a built node.  The visited set is threaded as a
list of canonical paths. -/
def process_file (fs : FS) : Nat → String → List String → Option (Option Node × List String)
  | 0, _, _ => none
  | fuel + 1, fp, processed =>
    let rp := fs.resolve fp
    if rp ∈ processed then some (none, processed)
    else if fs.found fp then
      let processed1 := rp :: processed
      match fs.readErr rp with
      | some e => some (some (Node.mk fp 0 0 0 (some e) []), processed1)
      | none =>
        let content := fs.content rp
        let inputs := findInputs (stripComments content)
        let cnen := count_words_in_content content
        match processChildrenAux fs (process_file fs fuel) fp inputs processed1 with
        | none => none
        | some (children, processed2) =>
          some (some (Node.mk fp cnen.1 cnen.2 (cnen.1 + cnen.2) none children), processed2)
    else some (some (Node.mk fp 0 0 0 (some "File not found") []), processed)

/-- The children loop at a given fuel (each child recursion runs at that
same fuel; `process_file (fuel+1)` runs its loop at `fuel`). -/
def processChildren (fs : FS) (fuel : Nat) (fp : String) (inputs : List (List Char))
    (processed : List String) : Option (List Node × List String) :=
  processChildrenAux fs (process_file fs fuel) fp inputs processed

theorem processChildren_nil (fs : FS) (fuel : Nat) (fp : String) (processed : List String) :
    processChildren fs fuel fp [] processed = some ([], processed) := rfl

theorem processChildren_cons (fs : FS) (fuel : Nat) (fp : String) (inp : List Char)
    (rest : List (List Char)) (processed : List String) :
    processChildren fs fuel fp (inp :: rest) processed
      = match process_file fs fuel (resolve_path fs (some fp) (String.mk inp)) processed with
        | none => none
        | some (childNode, processed1) =>
          match processChildren fs fuel fp rest processed1 with
          | none => none
          | some (ns, processed2) =>
            match childNode with
            | some c => some (c :: ns, processed2)
            | none => some (ns, processed2) := rfl

mutual
/-- The aggregator `calculate_total_stats(node)`: recursive `(total_cn, total_en)`. -/
def calculate_total_stats : Node → Nat × Nat
  | Node.mk _ cn en _ _ children =>
    let t := totalChildren children
    (cn + t.1, en + t.2)

def totalChildren : List Node → Nat × Nat
  | [] => (0, 0)
  | c :: rest =>
    let a := calculate_total_stats c
    let b := totalChildren rest
    (a.1 + b.1, a.2 + b.2)
end

/-- Aggregate total of a node: both components of `calculate_total_stats`. -/
def agTotal (n : Node) : Nat := (calculate_total_stats n).1 + (calculate_total_stats n).2

mutual
/-- Every node of the tree stores `total = cn + en`. -/
def wellTotaled : Node → Bool
  | Node.mk _ cn en tot _ children => (tot == cn + en) && allWT children

def allWT : List Node → Bool
  | [] => true
  | c :: rest => wellTotaled c && allWT rest
end

/-- `m` is `n` itself or a node somewhere inside `n`'s tree. -/
inductive Subtree : Node → Node → Prop where
  | refl (n : Node) : Subtree n n
  | child {m c n : Node} : c ∈ n.children → Subtree m c → Subtree m n

/-- The `(CN: x, EN: y, Total: z)` stats string of `print_tree`, with the
inline error annotation when present. -/
def statsOf (n : Node) : String :=
  "(CN: " ++ toString n.cn ++ ", EN: " ++ toString n.en ++ ", Total: " ++ toString n.total ++ ")"
    ++ match n.error with
       | some e => " [Error: " ++ e ++ "]"
       | none => ""

/-- The connector prefix of a printed node line. -/
def connectorOf (is_last : Bool) : String :=
  if is_last then "└── " else "├── "

mutual
/-- The renderer `print_tree(node, prefix, is_last, current_depth, max_depth)`, returning
the printed lines: the node's own line is always printed, then the children
only when the depth limit has not yet been reached. -/
def print_tree : Node → String → Bool → Nat → Option Nat → List String
  | Node.mk p cn en t e ch, pre, is_last, current_depth, max_depth =>
    let line := pre ++ connectorOf is_last ++ p ++ " " ++ statsOf (Node.mk p cn en t e ch)
    if (match max_depth with | some m => decide (current_depth ≥ m) | none => false) then [line]
    else
      line :: printChildren ch
        (pre ++ (if is_last then "    " else "│   ")) (current_depth + 1) max_depth

/-- The `for i, child in enumerate(children)` loop of `print_tree`:
`is_last` holds exactly for the final child. -/
def printChildren : List Node → String → Nat → Option Nat → List String
  | [], _, _, _ => []
  | c :: rest, pre, cd, md => print_tree c pre rest.isEmpty cd md ++ printChildren rest pre cd md
end

/-- The separator line `"-" * 60` printed by `main`. -/
def sepLine : String := String.mk (List.replicate 60 '-')

/-- The root's line as printed by `main` (no connector, no error field). -/
def rootLine (root : Node) : String :=
  root.path ++ " " ++ "(CN: " ++ toString root.cn ++ ", EN: " ++ toString root.en
    ++ ", Total: " ++ toString root.total ++ ")"

/-- The `GRAND TOTAL` line printed by `main`, from `calculate_total_stats`
of the full tree (independent of the depth limit). -/
def grandTotalLine (root : Node) : String :=
  let t := calculate_total_stats root
  "GRAND TOTAL: CN: " ++ toString t.1 ++ ", EN: " ++ toString t.2
    ++ ", Total: " ++ toString (t.1 + t.2)

/-- Everything `main` prints after building the tree: header, root line,
the root's children via `print_tree` at depth 1, separator, grand total. -/
def mainOutput (root : Node) (max_depth : Option Nat) : List String :=
  "Word Count Tree Structure:" :: rootLine root ::
    (printChildren root.children "" 1 max_depth ++ [sepLine, grandTotalLine root])

/-- The number of existing files whose canonical path is not yet visited:
the quantity that shrinks at every recursive descent of `process_file`. -/
def unvisited (fs : FS) (processed : List String) : Nat :=
  (fs.domain.filter (fun p => decide (p ∉ processed))).length

theorem process_file_visited {fs : FS} {fuel : Nat} {fp : String} {processed : List String}
    (h : fs.resolve fp ∈ processed) :
    process_file fs (fuel + 1) fp processed = some (none, processed) := by
  rw [process_file]
  simp [h]

theorem process_file_missing {fs : FS} {fuel : Nat} {fp : String} {processed : List String}
    (h1 : fs.resolve fp ∉ processed) (h2 : ¬ fs.found fp) :
    process_file fs (fuel + 1) fp processed
      = some (some (Node.mk fp 0 0 0 (some "File not found") []), processed) := by
  rw [process_file]
  simp [h1, h2]

theorem process_file_readErr {fs : FS} {fuel : Nat} {fp : String} {processed : List String}
    {e : String} (h1 : fs.resolve fp ∉ processed) (h2 : fs.found fp)
    (h3 : fs.readErr (fs.resolve fp) = some e) :
    process_file fs (fuel + 1) fp processed
      = some (some (Node.mk fp 0 0 0 (some e) []), fs.resolve fp :: processed) := by
  rw [process_file]
  simp [h1, h2, h3]

theorem process_file_success {fs : FS} {fuel : Nat} {fp : String} {processed : List String}
    (h1 : fs.resolve fp ∉ processed) (h2 : fs.found fp)
    (h3 : fs.readErr (fs.resolve fp) = none) :
    process_file fs (fuel + 1) fp processed
      = match processChildren fs fuel fp
          (findInputs (stripComments (fs.content (fs.resolve fp))))
          (fs.resolve fp :: processed) with
        | none => none
        | some (children, processed2) =>
          some (some (Node.mk fp (count_words_in_content (fs.content (fs.resolve fp))).1
            (count_words_in_content (fs.content (fs.resolve fp))).2
            ((count_words_in_content (fs.content (fs.resolve fp))).1
              + (count_words_in_content (fs.content (fs.resolve fp))).2) none children),
            processed2) := by
  rw [process_file]
  simp [h1, h2, h3, processChildren]

theorem process_mono (fs : FS) : ∀ fuel : Nat,
    (∀ (fp : String) (processed : List String) (r : Option Node) (s : List String),
      process_file fs fuel fp processed = some (r, s) → processed ⊆ s) ∧
    (∀ (inputs : List (List Char)) (fp : String) (processed : List String)
      (r : List Node) (s : List String),
      processChildren fs fuel fp inputs processed = some (r, s) → processed ⊆ s) := by
  intro fuel
  induction fuel with
  | zero =>
    constructor
    · intro fp pr r s h
      simp [process_file] at h
    · intro inputs fp pr r s h
      cases inputs with
      | nil =>
        simp [processChildren, processChildrenAux] at h
        exact h.2 ▸ List.Subset.refl pr
      | cons inp rest =>
        simp [processChildren, processChildrenAux, process_file] at h
  | succ fuel ih =>
    have hpf : ∀ (fp : String) (pr : List String) (r : Option Node) (s : List String),
        process_file fs (fuel + 1) fp pr = some (r, s) → pr ⊆ s := by
      intro fp pr r s h
      by_cases hv : fs.resolve fp ∈ pr
      · rw [process_file_visited hv] at h
        cases h
        exact List.Subset.refl pr
      · by_cases hf : fs.found fp
        · cases hre : fs.readErr (fs.resolve fp) with
          | some e =>
            rw [process_file_readErr hv hf hre] at h
            cases h
            exact List.subset_cons_self _ _
          | none =>
            rw [process_file_success hv hf hre] at h
            revert h
            cases hc : processChildren fs fuel fp
                (findInputs (stripComments (fs.content (fs.resolve fp))))
                (fs.resolve fp :: pr) with
            | none => intro h; cases h
            | some res =>
              intro h
              cases h
              exact List.Subset.trans (List.subset_cons_self _ _) (ih.2 _ _ _ _ _ hc)
        · rw [process_file_missing hv hf] at h
          cases h
          exact List.Subset.refl pr
    refine ⟨hpf, ?_⟩
    intro inputs
    induction inputs with
    | nil =>
      intro fp pr r s h
      simp [processChildren, processChildrenAux] at h
      exact h.2 ▸ List.Subset.refl pr
    | cons inp rest ihr =>
      intro fp pr r s h
      rw [processChildren_cons] at h
      revert h
      cases hc : process_file fs (fuel + 1) (resolve_path fs (some fp) (String.mk inp)) pr with
      | none => intro h; cases h
      | some res1 =>
        obtain ⟨cn, s1⟩ := res1
        cases hc2 : processChildren fs (fuel + 1) fp rest s1 with
        | none => intro h; simp [hc2] at h
        | some res2 =>
          obtain ⟨ns, s2⟩ := res2
          intro h
          simp only [hc2] at h
          have hsub1 : pr ⊆ s1 := hpf _ _ _ _ hc
          have hsub2 : s1 ⊆ s2 := ihr _ _ _ _ hc2
          cases cn with
          | some c => cases h; exact List.Subset.trans hsub1 hsub2
          | none => cases h; exact List.Subset.trans hsub1 hsub2

theorem countP_lt_of {α : Type} (p q : α → Bool) :
    ∀ (l : List α), (∀ a ∈ l, q a = true → p a = true) →
    ∀ a ∈ l, p a = true → q a = false → l.countP q < l.countP p := by
  intro l
  induction l with
  | nil => intro _ a ha; cases ha
  | cons d ds ih =>
    intro hpq a ha hp hq
    have hpq' : ∀ b ∈ ds, q b = true → p b = true := fun b hb => hpq b (List.mem_cons_of_mem _ hb)
    rcases List.mem_cons.mp ha with rfl | has
    · rw [List.countP_cons, List.countP_cons, hp, hq]
      have : ds.countP q ≤ ds.countP p := List.countP_mono_left hpq'
      simp only [if_true]
      rw [if_neg (by simp)]
      omega
    · have hlt : ds.countP q < ds.countP p := ih hpq' a has hp hq
      rw [List.countP_cons, List.countP_cons]
      have hle : (if q d = true then 1 else 0) ≤ (if p d = true then 1 else 0) := by
        cases hqd : q d with
        | true => simp [hpq d (List.mem_cons_self d ds) hqd]
        | false => rw [if_neg (by simp)]; omega
      omega

theorem unvisited_mono {fs : FS} {p1 p2 : List String} (h : p1 ⊆ p2) :
    unvisited fs p2 ≤ unvisited fs p1 := by
  unfold unvisited
  rw [← List.countP_eq_length_filter, ← List.countP_eq_length_filter]
  refine List.countP_mono_left ?_
  intro a _ ha
  simp only [decide_eq_true_eq] at ha ⊢
  intro hm
  exact ha (h hm)

theorem unvisited_cons_lt {fs : FS} {rp : String} {processed : List String}
    (hd : rp ∈ fs.domain) (hn : rp ∉ processed) :
    unvisited fs (rp :: processed) < unvisited fs processed := by
  unfold unvisited
  rw [← List.countP_eq_length_filter, ← List.countP_eq_length_filter]
  refine countP_lt_of _ _ fs.domain ?_ rp hd ?_ ?_
  · intro a _ ha
    simp only [decide_eq_true_eq] at ha ⊢
    intro hm
    exact ha (List.mem_cons_of_mem _ hm)
  · simp [hn]
  · simp

theorem process_some (fs : FS) : ∀ fuel : Nat,
    (∀ (fp : String) (processed : List String), unvisited fs processed < fuel →
      (process_file fs fuel fp processed).isSome = true) ∧
    (∀ (inputs : List (List Char)) (fp : String) (processed : List String),
      unvisited fs processed < fuel →
      (processChildren fs fuel fp inputs processed).isSome = true) := by
  intro fuel
  induction fuel with
  | zero =>
    constructor
    · intro fp pr h; omega
    · intro inputs fp pr h; omega
  | succ fuel ih =>
    have hpf : ∀ (fp : String) (pr : List String), unvisited fs pr < fuel + 1 →
        (process_file fs (fuel + 1) fp pr).isSome = true := by
      intro fp pr hu
      by_cases hv : fs.resolve fp ∈ pr
      · rw [process_file_visited hv]; rfl
      · by_cases hf : fs.found fp
        · cases hre : fs.readErr (fs.resolve fp) with
          | some e => rw [process_file_readErr hv hf hre]; rfl
          | none =>
            rw [process_file_success hv hf hre]
            have hdom : fs.resolve fp ∈ fs.domain := hf
            have hlt : unvisited fs (fs.resolve fp :: pr) < unvisited fs pr :=
              unvisited_cons_lt hdom hv
            have hlt2 : unvisited fs (fs.resolve fp :: pr) < fuel := by omega
            have hsome := ih.2 (findInputs (stripComments (fs.content (fs.resolve fp))))
              fp (fs.resolve fp :: pr) hlt2
            revert hsome
            cases processChildren fs fuel fp
                (findInputs (stripComments (fs.content (fs.resolve fp))))
                (fs.resolve fp :: pr) with
            | none => intro hsome; cases hsome
            | some res => intro _; cases res; rfl
        · rw [process_file_missing hv hf]; rfl
    refine ⟨hpf, ?_⟩
    intro inputs
    induction inputs with
    | nil => intro fp pr _; rw [processChildren_nil]; rfl
    | cons inp rest ihr =>
      intro fp pr hu
      rw [processChildren_cons]
      have h1 := hpf (resolve_path fs (some fp) (String.mk inp)) pr hu
      obtain ⟨⟨cn, s1⟩, hc⟩ := Option.isSome_iff_exists.mp h1
      rw [hc]
      have hsub : pr ⊆ s1 := (process_mono fs (fuel + 1)).1 _ _ _ _ hc
      have hu2 : unvisited fs s1 < fuel + 1 := lt_of_le_of_lt (unvisited_mono hsub) hu
      have h2 := ihr fp s1 hu2
      obtain ⟨⟨ns, s2⟩, hc2⟩ := Option.isSome_iff_exists.mp h2
      simp only [hc2]
      cases cn <;> rfl

theorem allWT_mem : ∀ (ns : List Node), allWT ns = true → ∀ c ∈ ns, wellTotaled c = true := by
  intro ns
  induction ns with
  | nil => intro _ c hc; cases hc
  | cons d ds ih =>
    intro h c hc
    rw [allWT, Bool.and_eq_true] at h
    rcases List.mem_cons.mp hc with rfl | hds
    · exact h.1
    · exact ih h.2 c hds

theorem wellTotaled_children {n : Node} (h : wellTotaled n = true) :
    ∀ c ∈ n.children, wellTotaled c = true := by
  cases n with
  | mk p cn en t e ch =>
    rw [wellTotaled, Bool.and_eq_true] at h
    exact allWT_mem ch h.2

theorem wellTotaled_of_subtree {m n : Node} (hs : Subtree m n) :
    wellTotaled n = true → wellTotaled m = true := by
  induction hs with
  | refl => exact id
  | child hc _ ih => exact fun hn => ih (wellTotaled_children hn _ hc)

theorem process_wellTotaled (fs : FS) : ∀ fuel : Nat,
    (∀ (fp : String) (processed : List String) (n : Node) (s : List String),
      process_file fs fuel fp processed = some (some n, s) → wellTotaled n = true) ∧
    (∀ (inputs : List (List Char)) (fp : String) (processed : List String)
      (ns : List Node) (s : List String),
      processChildren fs fuel fp inputs processed = some (ns, s) → allWT ns = true) := by
  intro fuel
  induction fuel with
  | zero =>
    constructor
    · intro fp pr n s h
      simp [process_file] at h
    · intro inputs fp pr ns s h
      cases inputs with
      | nil =>
        simp [processChildren, processChildrenAux] at h
        rw [h.1]
        rfl
      | cons inp rest =>
        simp [processChildren, processChildrenAux, process_file] at h
  | succ fuel ih =>
    have hpf : ∀ (fp : String) (pr : List String) (n : Node) (s : List String),
        process_file fs (fuel + 1) fp pr = some (some n, s) → wellTotaled n = true := by
      intro fp pr n s h
      by_cases hv : fs.resolve fp ∈ pr
      · rw [process_file_visited hv] at h
        cases h
      · by_cases hf : fs.found fp
        · cases hre : fs.readErr (fs.resolve fp) with
          | some e =>
            rw [process_file_readErr hv hf hre] at h
            cases h
            rfl
          | none =>
            rw [process_file_success hv hf hre] at h
            revert h
            cases hc : processChildren fs fuel fp
                (findInputs (stripComments (fs.content (fs.resolve fp))))
                (fs.resolve fp :: pr) with
            | none => intro h; cases h
            | some res =>
              obtain ⟨children, p2⟩ := res
              intro h
              cases h
              rw [wellTotaled, Bool.and_eq_true]
              exact ⟨by simp, ih.2 _ _ _ _ _ hc⟩
        · rw [process_file_missing hv hf] at h
          cases h
          rfl
    refine ⟨hpf, ?_⟩
    intro inputs
    induction inputs with
    | nil =>
      intro fp pr ns s h
      simp [processChildren, processChildrenAux] at h
      rw [h.1]
      rfl
    | cons inp rest ihr =>
      intro fp pr ns s h
      rw [processChildren_cons] at h
      revert h
      cases hc : process_file fs (fuel + 1) (resolve_path fs (some fp) (String.mk inp)) pr with
      | none => intro h; cases h
      | some res1 =>
        obtain ⟨cn, s1⟩ := res1
        cases hc2 : processChildren fs (fuel + 1) fp rest s1 with
        | none => intro h; simp [hc2] at h
        | some res2 =>
          obtain ⟨ns2, s2⟩ := res2
          intro h
          simp only [hc2] at h
          cases cn with
          | some c =>
            cases h
            rw [allWT, Bool.and_eq_true]
            exact ⟨hpf _ _ _ _ hc, ihr _ _ _ _ hc2⟩
          | none =>
            cases h
            exact ihr _ _ _ _ hc2

theorem totalChildren_eq_sum : ∀ ns : List Node,
    (totalChildren ns).1 + (totalChildren ns).2 = (ns.map agTotal).sum := by
  intro ns
  induction ns with
  | nil => rfl
  | cons c rest ih =>
    rw [totalChildren]
    simp only [List.map_cons, List.sum_cons]
    have hc : agTotal c = (calculate_total_stats c).1 + (calculate_total_stats c).2 := rfl
    omega

theorem agTotal_of_wellTotaled {m : Node} (hw : wellTotaled m = true) :
    agTotal m = m.total + (m.children.map agTotal).sum := by
  cases m with
  | mk p cn en t e ch =>
    rw [wellTotaled, Bool.and_eq_true] at hw
    have ht : t = cn + en := by simpa using hw.1
    have hsum := totalChildren_eq_sum ch
    simp only [Node.total, Node.children]
    rw [ht]
    show (calculate_total_stats (Node.mk p cn en t e ch)).1
      + (calculate_total_stats (Node.mk p cn en t e ch)).2 = _
    rw [calculate_total_stats]
    omega

/-- Concrete two-file project: `root.tex` includes `a.tex`. -/
def fsA : FS := {
  domain := ["root.tex", "a.tex"],
  resolve := id,
  content := fun p => if p = "root.tex" then ("Hello \\input\x7ba\x7d").toList
    else ("world").toList,
  readErr := fun _ => none,
  joinParent := fun _ p => p }

/-- Concrete project whose root references a missing file `m` twice. -/
def fsC3 : FS := {
  domain := ["root.tex"],
  resolve := id,
  content := fun _ => ("\\input\x7bm\x7d\\input\x7bm\x7d").toList,
  readErr := fun _ => none,
  joinParent := fun _ p => p }

/-- Concrete one-file project whose root only has a commented-out include. -/
def fsGhost : FS := {
  domain := ["g.tex"],
  resolve := id,
  content := fun _ => ("% \\input\x7bghost\x7d\nReal text here").toList,
  readErr := fun _ => none,
  joinParent := fun _ p => p }

/-- C1: the recursive build terminates on every include graph: with fuel
`unvisited + 1` the build completes (never runs out of fuel, i.e. the
recursion never revisits a file), a reference to an already-visited resolved
path returns absence leaving the visited set unchanged, and the children
loop inserts no child node for such a reference. -/
theorem process_file_terminates (fs : FS) (fp : String) (processed : List String) :
    (process_file fs (unvisited fs processed + 1) fp processed).isSome = true
    ∧ (fs.resolve fp ∈ processed →
        process_file fs (unvisited fs processed + 1) fp processed = some (none, processed))
    ∧ (∀ (fuel : Nat) (inp : List Char) (rest : List (List Char)),
        fs.resolve (resolve_path fs (some fp) (String.mk inp)) ∈ processed →
        processChildren fs (fuel + 1) fp (inp :: rest) processed
          = processChildren fs (fuel + 1) fp rest processed) := by
  refine ⟨(process_some fs (unvisited fs processed + 1)).1 fp processed (by omega),
    fun h => process_file_visited h, ?_⟩
  intro fuel inp rest h
  rw [processChildren_cons, process_file_visited h]
  dsimp only
  cases hc : processChildren fs (fuel + 1) fp rest processed with
  | none => rfl
  | some res => rfl

theorem process_file_terminates_witness :
    process_file fsA (unvisited fsA ["root.tex"] + 1) "root.tex" ["root.tex"]
        = some (none, ["root.tex"])
    ∧ processChildren fsA 1 "root.tex" [("a").toList] ["a.tex"]
        = processChildren fsA 1 "root.tex" [] ["a.tex"] :=
  ⟨(process_file_terminates fsA "root.tex" ["root.tex"]).2.1 (by decide),
   (process_file_terminates fsA "root.tex" ["a.tex"]).2.2 0 (("a").toList) [] (by decide)⟩

/-- C2: for every node of a tree produced by the builder, the aggregate
total equals the node's own stored total plus the sum of the aggregate
totals of its children. -/
theorem aggregate_law (fs : FS) (fuel : Nat) (fp : String) (processed : List String)
    (n : Node) (s : List String)
    (h : process_file fs fuel fp processed = some (some n, s)) :
    ∀ m : Node, Subtree m n → agTotal m = m.total + (m.children.map agTotal).sum := by
  intro m hm
  have hw : wellTotaled n = true := (process_wellTotaled fs fuel).1 _ _ _ _ h
  exact agTotal_of_wellTotaled (wellTotaled_of_subtree hm hw)

theorem aggregate_law_witness :
    agTotal (Node.mk "root.tex" 0 1 1 none [Node.mk "a.tex" 0 1 1 none []])
      = (Node.mk "root.tex" 0 1 1 none [Node.mk "a.tex" 0 1 1 none []]).total
        + (((Node.mk "root.tex" 0 1 1 none [Node.mk "a.tex" 0 1 1 none []]).children.map
            agTotal).sum) :=
  aggregate_law fsA 2 "root.tex" []
    (Node.mk "root.tex" 0 1 1 none [Node.mk "a.tex" 0 1 1 none []])
    ["a.tex", "root.tex"] rfl
    (Node.mk "root.tex" 0 1 1 none [Node.mk "a.tex" 0 1 1 none []]) (Subtree.refl _)

/-- C3 counterexample: a file that is missing and referenced twice produces
an error node on BOTH references (the children list has two error nodes),
and the returned visited set does not contain the missing path; the claim
said the second reference is silently omitted. -/
theorem missing_twice_counterexample :
    process_file fsC3 2 "root.tex" []
      = some (some (Node.mk "root.tex" 0 0 0 none
          [Node.mk "m.tex" 0 0 0 (some "File not found") [],
           Node.mk "m.tex" 0 0 0 (some "File not found") []]), ["root.tex"]) := rfl

/-- C3 amended: on a missing file the builder returns an error node and
does NOT record the attempted resolved path as visited (the visited set is
returned unchanged), so a file that is both missing and referenced twice
shows an error node on each of the two references. -/
theorem missing_not_recorded (fs : FS) (fuel : Nat) (fp : String) (processed : List String)
    (inp : List Char) (rest : List (List Char))
    (h1 : fs.resolve (resolve_path fs (some fp) (String.mk inp)) ∉ processed)
    (h2 : ¬ fs.found (resolve_path fs (some fp) (String.mk inp))) :
    process_file fs (fuel + 1) (resolve_path fs (some fp) (String.mk inp)) processed
      = some (some (Node.mk (resolve_path fs (some fp) (String.mk inp)) 0 0 0
          (some "File not found") []), processed)
    ∧ processChildren fs (fuel + 1) fp (inp :: inp :: rest) processed
      = (processChildren fs (fuel + 1) fp rest processed).map
          (fun r => (Node.mk (resolve_path fs (some fp) (String.mk inp)) 0 0 0
              (some "File not found") []
            :: Node.mk (resolve_path fs (some fp) (String.mk inp)) 0 0 0
              (some "File not found") [] :: r.1, r.2)) := by
  constructor
  · exact process_file_missing h1 h2
  · rw [processChildren_cons, process_file_missing h1 h2]
    dsimp only
    rw [processChildren_cons, process_file_missing h1 h2]
    dsimp only
    cases hc : processChildren fs (fuel + 1) fp rest processed with
    | none => rfl
    | some res => rfl

theorem missing_not_recorded_witness :
    process_file fsC3 1 (resolve_path fsC3 (some "root.tex") (String.mk (("m").toList))) []
      = some (some (Node.mk (resolve_path fsC3 (some "root.tex") (String.mk (("m").toList)))
          0 0 0 (some "File not found") []), [])
    ∧ processChildren fsC3 1 "root.tex" [("m").toList, ("m").toList] []
      = (processChildren fsC3 1 "root.tex" [] []).map
          (fun r => (Node.mk (resolve_path fsC3 (some "root.tex") (String.mk (("m").toList)))
              0 0 0 (some "File not found") []
            :: Node.mk (resolve_path fsC3 (some "root.tex") (String.mk (("m").toList)))
              0 0 0 (some "File not found") [] :: r.1, r.2)) :=
  missing_not_recorded fsC3 0 "root.tex" [] (("m").toList) [] (by decide) (by decide)

/-- C6: an include whose resolved target does not exist yields a child node
with zero total, the non-empty error `File not found`, and no children; the
loop continues with the remaining siblings over an unchanged visited set,
and the error node contributes zero to the aggregate totals. -/
theorem missing_include_error_node (fs : FS) (fuel : Nat) (fp : String)
    (processed : List String) (inp : List Char) (rest : List (List Char))
    (h1 : fs.resolve (resolve_path fs (some fp) (String.mk inp)) ∉ processed)
    (h2 : ¬ fs.found (resolve_path fs (some fp) (String.mk inp))) :
    processChildren fs (fuel + 1) fp (inp :: rest) processed
      = (processChildren fs (fuel + 1) fp rest processed).map
          (fun r => (Node.mk (resolve_path fs (some fp) (String.mk inp)) 0 0 0
            (some "File not found") [] :: r.1, r.2))
    ∧ (Node.mk (resolve_path fs (some fp) (String.mk inp)) 0 0 0
        (some "File not found") []).total = 0
    ∧ (Node.mk (resolve_path fs (some fp) (String.mk inp)) 0 0 0
        (some "File not found") []).error = some "File not found"
    ∧ "File not found" ≠ ""
    ∧ (Node.mk (resolve_path fs (some fp) (String.mk inp)) 0 0 0
        (some "File not found") []).children = []
    ∧ agTotal (Node.mk (resolve_path fs (some fp) (String.mk inp)) 0 0 0
        (some "File not found") []) = 0 := by
  refine ⟨?_, rfl, rfl, by decide, rfl, rfl⟩
  rw [processChildren_cons, process_file_missing h1 h2]
  dsimp only
  cases hc : processChildren fs (fuel + 1) fp rest processed with
  | none => rfl
  | some res => rfl

theorem missing_include_error_node_witness :
    processChildren fsA 1 "root.tex" [("nope").toList] []
      = (processChildren fsA 1 "root.tex" [] []).map
          (fun r => (Node.mk (resolve_path fsA (some "root.tex") (String.mk (("nope").toList)))
            0 0 0 (some "File not found") [] :: r.1, r.2))
    ∧ agTotal (Node.mk (resolve_path fsA (some "root.tex") (String.mk (("nope").toList)))
        0 0 0 (some "File not found") []) = 0 :=
  ⟨(missing_include_error_node fsA 0 "root.tex" [] (("nope").toList) []
      (by decide) (by decide)).1,
   (missing_include_error_node fsA 0 "root.tex" [] (("nope").toList) []
      (by decide) (by decide)).2.2.2.2.2⟩

/-- C7: include extraction runs on the comment-stripped text, so a
commented-out include is never followed: a root whose content is
`% \input{ghost}` then `Real text here` builds a node with no children
(and counts 0 Chinese, 3 English words), whether or not `ghost` exists. -/
theorem commented_include_not_followed (fs : FS) (fuel : Nat) (root : String)
    (processed : List String)
    (hcontent : fs.content (fs.resolve root)
      = ("% \\input\x7bghost\x7d\nReal text here").toList)
    (hnv : fs.resolve root ∉ processed)
    (hfound : fs.found root)
    (hre : fs.readErr (fs.resolve root) = none) :
    process_file fs (fuel + 1) root processed
      = some (some (Node.mk root 0 3 3 none []), fs.resolve root :: processed) := by
  rw [process_file_success hnv hfound hre, hcontent]
  have h1 : findInputs (stripComments (("% \\input\x7bghost\x7d\nReal text here").toList))
      = [] := rfl
  rw [h1, processChildren_nil]
  rfl

theorem commented_include_not_followed_witness :
    process_file fsGhost 1 "g.tex" [] = some (some (Node.mk "g.tex" 0 3 3 none []), ["g.tex"]) :=
  commented_include_not_followed fsGhost 0 "g.tex" [] rfl (by decide) (by decide) rfl

/-- C9: the path resolver appends `.tex` exactly when absent, returns the
working-directory candidate when it exists, otherwise the candidate
relative to the referring file's directory when that exists, otherwise the
working-directory candidate unresolved; no other location is ever
returned. -/
theorem resolve_path_spec (fs : FS) (base_path : Option String) (input_path : String) :
    (endsWithTex input_path = true → texCandidate input_path = input_path)
    ∧ (endsWithTex input_path = false → texCandidate input_path = input_path ++ ".tex")
    ∧ (fs.found (texCandidate input_path) →
        resolve_path fs base_path input_path = texCandidate input_path)
    ∧ (∀ bp, base_path = some bp → ¬ fs.found (texCandidate input_path) →
        fs.found (fs.joinParent bp (texCandidate input_path)) →
        resolve_path fs base_path input_path = fs.joinParent bp (texCandidate input_path))
    ∧ (∀ bp, base_path = some bp → ¬ fs.found (texCandidate input_path) →
        ¬ fs.found (fs.joinParent bp (texCandidate input_path)) →
        resolve_path fs base_path input_path = texCandidate input_path)
    ∧ (base_path = none → resolve_path fs base_path input_path = texCandidate input_path)
    ∧ (resolve_path fs base_path input_path = texCandidate input_path
        ∨ ∃ bp, base_path = some bp
            ∧ resolve_path fs base_path input_path
              = fs.joinParent bp (texCandidate input_path)) := by
  refine ⟨fun h => by simp [texCandidate, h], fun h => by simp [texCandidate, h],
    ?_, ?_, ?_, ?_, ?_⟩
  · intro h
    simp [resolve_path, h]
  · intro bp hbp h hj
    subst hbp
    simp [resolve_path, h, hj]
  · intro bp hbp h hj
    subst hbp
    simp [resolve_path, h, hj]
  · intro hbp
    subst hbp
    by_cases h : fs.found (texCandidate input_path) <;> simp [resolve_path, h]
  · by_cases h : fs.found (texCandidate input_path)
    · exact Or.inl (by simp [resolve_path, h])
    · cases base_path with
      | none => exact Or.inl (by simp [resolve_path, h])
      | some bp =>
        by_cases hj : fs.found (fs.joinParent bp (texCandidate input_path))
        · exact Or.inr ⟨bp, rfl, by simp [resolve_path, h, hj]⟩
        · exact Or.inl (by simp [resolve_path, h, hj])

theorem resolve_path_spec_witness :
    resolve_path fsA none "a" = texCandidate "a" ∧ texCandidate "a" = "a" ++ ".tex" :=
  ⟨(resolve_path_spec fsA none "a").2.2.1 (by decide),
   (resolve_path_spec fsA none "a").2.1 (by decide)⟩

theorem dropWhile_append_newline {r : List Char} (rest : List Char) (h : '\n' ∉ r) :
    (r ++ '\n' :: rest).dropWhile (fun d => d ≠ '\n') = '\n' :: rest := by
  induction r with
  | nil => simp [List.dropWhile]
  | cons c cs ih =>
    have hc : c ≠ '\n' := fun he => h (he ▸ List.mem_cons_self c cs)
    rw [List.cons_append, List.dropWhile_cons]
    simp only [hc, decide_not, decide_eq_true_eq, ne_eq, not_false_iff]
    simpa using ih (fun hm => h (List.mem_cons_of_mem _ hm))

theorem dropWhile_no_newline {r : List Char} (h : '\n' ∉ r) :
    r.dropWhile (fun d => d ≠ '\n') = [] := by
  induction r with
  | nil => rfl
  | cons c cs ih =>
    have hc : c ≠ '\n' := fun he => h (he ▸ List.mem_cons_self c cs)
    rw [List.dropWhile_cons]
    simpa [hc] using ih (fun hm => h (List.mem_cons_of_mem _ hm))

theorem stripComments_no_pct {l : List Char} (h : '%' ∉ l) : stripComments l = l := by
  induction l with
  | nil => rfl
  | cons c rest ih =>
    have hc : c ≠ '%' := fun he => h (he ▸ List.mem_cons_self c rest)
    rw [stripComments_cons, if_neg hc, ih (fun hm => h (List.mem_cons_of_mem _ hm))]

/-- C10: comment stripping treats every `%` as a comment start, an escaped
`\%` included: on any line, everything from the first `%` to the end of the
line is removed, so the text after the `%` is not counted and an include
directive there is never extracted. -/
theorem comment_strips_escaped_percent (l r rest : List Char)
    (hl : '%' ∉ l) (hr : '\n' ∉ r) :
    stripComments (l ++ '%' :: (r ++ '\n' :: rest)) = l ++ '\n' :: stripComments rest
    ∧ stripComments (l ++ '%' :: r) = l
    ∧ count_words_in_content (l ++ '%' :: r) = count_words_in_content l
    ∧ findInputs (stripComments (l ++ '%' :: r)) = findInputs l := by
  have conj1 : stripComments (l ++ '%' :: (r ++ '\n' :: rest))
      = l ++ '\n' :: stripComments rest := by
    induction l with
    | nil =>
      rw [List.nil_append, stripComments_cons, if_pos rfl, dropWhile_append_newline rest hr,
        stripComments_cons]
      simp
    | cons c l2 ih =>
      have hc : c ≠ '%' := fun he => hl (he ▸ List.mem_cons_self c l2)
      rw [List.cons_append, stripComments_cons, if_neg hc,
        ih (fun hm => hl (List.mem_cons_of_mem _ hm))]
      rfl
  have conj2 : stripComments (l ++ '%' :: r) = l := by
    clear conj1
    induction l with
    | nil =>
      rw [List.nil_append, stripComments_cons, if_pos rfl, dropWhile_no_newline hr]
      rfl
    | cons c l2 ih =>
      have hc : c ≠ '%' := fun he => hl (he ▸ List.mem_cons_self c l2)
      rw [List.cons_append, stripComments_cons, if_neg hc,
        ih (fun hm => hl (List.mem_cons_of_mem _ hm))]
  refine ⟨conj1, conj2, ?_, ?_⟩
  · show rawCounts (clean_tex_content (l ++ '%' :: r)) = rawCounts (clean_tex_content l)
    unfold clean_tex_content
    rw [conj2, stripComments_no_pct hl]
  · rw [conj2]

theorem comment_strips_escaped_percent_witness :
    count_words_in_content ((("A \\").toList) ++ '%' :: ((" B \\input\x7bghost\x7d").toList))
      = count_words_in_content (("A \\").toList)
    ∧ findInputs (stripComments ((("A \\").toList) ++ '%' :: ((" B \\input\x7bghost\x7d").toList)))
      = findInputs (("A \\").toList) :=
  ⟨(comment_strips_escaped_percent (("A \\").toList) ((" B \\input\x7bghost\x7d").toList) []
      (by decide) (by decide)).2.2.1,
   (comment_strips_escaped_percent (("A \\").toList) ((" B \\input\x7bghost\x7d").toList) []
      (by decide) (by decide)).2.2.2⟩

theorem print_tree_at_limit (n : Node) (pre : String) (is_last : Bool) (cd m : Nat)
    (h : cd ≥ m) :
    print_tree n pre is_last cd (some m)
      = [pre ++ connectorOf is_last ++ n.path ++ " " ++ statsOf n] := by
  cases n with
  | mk p cn en t e ch =>
    rw [print_tree]
    simp [h, Node.path]

theorem printChildren_at_limit (ns : List Node) (pre : String) (cd m : Nat) (h : cd ≥ m) :
    (printChildren ns pre cd (some m)).length = ns.length := by
  induction ns with
  | nil => rfl
  | cons c rest ih =>
    rw [printChildren, print_tree_at_limit _ _ _ _ _ h]
    simp [ih]

theorem printChildren_at_limit_mem : ∀ (ns : List Node) (pre : String) (cd m : Nat),
    cd ≥ m → ∀ s ∈ printChildren ns pre cd (some m), ∃ c ∈ ns, ∃ b : Bool,
      s = pre ++ connectorOf b ++ c.path ++ " " ++ statsOf c := by
  intro ns
  induction ns with
  | nil =>
    intro pre cd m _ s hs
    simp [printChildren] at hs
  | cons c rest ih =>
    intro pre cd m h s hs
    rw [printChildren, print_tree_at_limit _ _ _ _ _ h] at hs
    rcases List.mem_append.mp hs with h1 | h2
    · exact ⟨c, List.mem_cons_self _ _, rest.isEmpty, List.mem_singleton.mp h1⟩
    · obtain ⟨d, hd, b, hb⟩ := ih pre cd m h s h2
      exact ⟨d, List.mem_cons_of_mem _ hd, b, hb⟩

/-- C5 counterexample: with `--max-depth 0` on a root that has a child, the
rendered output contains the child's line as well as the root's (the node
line is printed before the depth check, and `main` invokes the renderer on
each direct child unconditionally), so the output does not consist of the
root's line alone. -/
theorem max_depth_zero_counterexample :
    (Node.mk "root.tex" 1 2 3 none [Node.mk "a.tex" 0 1 1 none []]).children ≠ []
    ∧ mainOutput (Node.mk "root.tex" 1 2 3 none [Node.mk "a.tex" 0 1 1 none []]) (some 0)
      = ["Word Count Tree Structure:",
         "root.tex (CN: 1, EN: 2, Total: 3)",
         "└── a.tex (CN: 0, EN: 1, Total: 1)",
         sepLine,
         "GRAND TOTAL: CN: 1, EN: 3, Total: 4"] := by
  constructor
  · simp [Node.children]
  · rfl

/-- C5 amended: with `--max-depth 0` the output is the header, the root's
line, exactly one line per direct child of the root (each child's own line,
no deeper descendants), the separator, and the grand-total line; the grand
total is computed from the full tree for every depth limit. -/
theorem max_depth_zero_prints_direct_children (root : Node) :
    mainOutput root (some 0)
      = "Word Count Tree Structure:" :: rootLine root ::
          (printChildren root.children "" 1 (some 0) ++ [sepLine, grandTotalLine root])
    ∧ (printChildren root.children "" 1 (some 0)).length = root.children.length
    ∧ (∀ s ∈ printChildren root.children "" 1 (some 0), ∃ c ∈ root.children, ∃ b : Bool,
        s = "" ++ connectorOf b ++ c.path ++ " " ++ statsOf c)
    ∧ (∀ md : Option Nat, (mainOutput root md).getLast? = some (grandTotalLine root)) := by
  refine ⟨rfl, printChildren_at_limit _ _ _ _ (by omega),
    printChildren_at_limit_mem _ _ _ _ (by omega), ?_⟩
  intro md
  show (("Word Count Tree Structure:" :: rootLine root :: printChildren root.children "" 1 md)
      ++ [sepLine, grandTotalLine root]).getLast? = some (grandTotalLine root)
  rw [List.getLast?_append]
  rfl

theorem mem_stripComments : ∀ (n : Nat) (l : List Char), l.length ≤ n →
    ∀ {c : Char}, c ∈ stripComments l → c ∈ l := by
  intro n
  induction n with
  | zero =>
    intro l h1 c hc
    have hl : l = [] := List.length_eq_zero.mp (Nat.le_zero.mp h1)
    subst hl
    rw [stripComments_nil] at hc
    cases hc
  | succ n ih =>
    intro l h1 c hc
    cases l with
    | nil =>
      rw [stripComments_nil] at hc
      cases hc
    | cons d rest =>
      rw [stripComments_cons] at hc
      split at hc
      · have hmem := ih _ (le_trans (dropWhile_length_le _ _) (by simpa using h1)) hc
        exact List.mem_cons_of_mem _ ((List.dropWhile_sublist _).subset hmem)
      · rcases List.mem_cons.mp hc with rfl | hm
        · exact List.mem_cons_self _ _
        · exact List.mem_cons_of_mem _ (ih _ (by simpa using h1) hm)

theorem pct_not_mem_stripComments : ∀ (n : Nat) (l : List Char), l.length ≤ n →
    '%' ∉ stripComments l := by
  intro n
  induction n with
  | zero =>
    intro l h1
    have hl : l = [] := List.length_eq_zero.mp (Nat.le_zero.mp h1)
    subst hl
    simp [stripComments_nil]
  | succ n ih =>
    intro l h1
    cases l with
    | nil => simp [stripComments_nil]
    | cons d rest =>
      rw [stripComments_cons]
      split
      · exact ih _ (le_trans (dropWhile_length_le _ _) (by simpa using h1))
      · intro hmem
        rcases List.mem_cons.mp hmem with he | hm
        · next hd => exact hd he.symm
        · exact ih _ (by simpa using h1) hm

theorem mem_removeSpans (o : Char) (opRest cl : List Char) (dotall : Bool) :
    ∀ (n : Nat) (l : List Char), l.length ≤ n →
    ∀ {c : Char}, c ∈ removeSpans o opRest cl dotall l → c ∈ l := by
  intro n
  induction n with
  | zero =>
    intro l h1 c hc
    have hl : l = [] := List.length_eq_zero.mp (Nat.le_zero.mp h1)
    subst hl
    rw [removeSpans_nil] at hc
    cases hc
  | succ n ih =>
    intro l h1 c hc
    cases l with
    | nil =>
      rw [removeSpans_nil] at hc
      cases hc
    | cons d rest =>
      rw [removeSpans_cons] at hc
      split at hc
      · revert hc
        cases hfc : findClose cl dotall (rest.drop opRest.length) with
        | some rem =>
          intro hc
          have hlen : rem.length ≤ rest.length :=
            le_trans (findClose_length_le hfc) (by simp [List.length_drop])
          have hrem := ih rem (le_trans hlen (by simpa using h1)) hc
          exact List.mem_cons_of_mem _ ((List.drop_subset _ _) (findClose_mem hfc hrem))
        | none =>
          intro hc
          rcases List.mem_cons.mp hc with rfl | hm
          · exact List.mem_cons_self _ _
          · exact List.mem_cons_of_mem _ (ih rest (by simpa using h1) hm)
      · rcases List.mem_cons.mp hc with rfl | hm
        · exact List.mem_cons_self _ _
        · exact List.mem_cons_of_mem _ (ih rest (by simpa using h1) hm)

theorem mem_stripCommands : ∀ (n : Nat) (l : List Char), l.length ≤ n →
    ∀ {c : Char}, c ∈ stripCommands l → c ∈ l ∨ c = ' ' := by
  intro n
  induction n with
  | zero =>
    intro l h1 c hc
    have hl : l = [] := List.length_eq_zero.mp (Nat.le_zero.mp h1)
    subst hl
    rw [stripCommands_nil] at hc
    cases hc
  | succ n ih =>
    intro l h1 c hc
    cases l with
    | nil =>
      rw [stripCommands_nil] at hc
      cases hc
    | cons d rest =>
      rw [stripCommands_cons] at hc
      split at hc
      · rcases List.mem_cons.mp hc with rfl | hm
        · exact Or.inr rfl
        · rcases ih _ (le_trans (dropWhile_length_le _ _) (by simpa using h1)) hm with h | h
          · exact Or.inl (List.mem_cons_of_mem _ ((List.dropWhile_sublist _).subset h))
          · exact Or.inr h
      · rcases List.mem_cons.mp hc with rfl | hm
        · exact Or.inl (List.mem_cons_self _ _)
        · rcases ih rest (by simpa using h1) hm with h | h
          · exact Or.inl (List.mem_cons_of_mem _ h)
          · exact Or.inr h

theorem mem_braceToSpace {l : List Char} {c : Char} (hc : c ∈ braceToSpace l) :
    c ∈ l ∨ c = ' ' := by
  obtain ⟨a, ha, hfa⟩ := List.mem_map.mp hc
  unfold braceChar at hfa
  split at hfa
  · exact Or.inr hfa.symm
  · exact Or.inl (hfa ▸ ha)

theorem braceChar_ne_braces (a : Char) : braceChar a ≠ '\x7b' ∧ braceChar a ≠ '\x7d' := by
  unfold braceChar
  split
  · exact ⟨by decide, by decide⟩
  · next h =>
    simp only [Bool.or_eq_true, decide_eq_true_eq, not_or] at h
    exact ⟨h.1, h.2⟩

theorem braces_not_mem_braceToSpace (l : List Char) :
    '\x7b' ∉ braceToSpace l ∧ '\x7d' ∉ braceToSpace l := by
  constructor
  · intro hmem
    obtain ⟨a, _, hfa⟩ := List.mem_map.mp hmem
    exact (braceChar_ne_braces a).1 hfa
  · intro hmem
    obtain ⟨a, _, hfa⟩ := List.mem_map.mp hmem
    exact (braceChar_ne_braces a).2 hfa

theorem mem_foldl_removeSpans : ∀ (cmds : List String) (l : List Char) {c : Char},
    c ∈ cmds.foldl (fun acc cmd => removeSpans '\\' (cmd.toList ++ ['\x7b']) ['\x7d'] true acc) l →
    c ∈ l := by
  intro cmds
  induction cmds with
  | nil => intro l c h; simpa using h
  | cons cmd rest ih =>
    intro l c h
    rw [List.foldl_cons] at h
    exact mem_removeSpans _ _ _ _ _ _ (le_refl _) (ih _ h)

theorem mem_clean_tex_content {t : List Char} {c : Char} (hc : c ∈ clean_tex_content t) :
    c ∈ t ∨ c = ' ' := by
  unfold clean_tex_content at hc
  rcases mem_braceToSpace hc with h6 | h6
  · rcases mem_stripCommands _ _ (le_refl _) h6 with h5 | h5
    · have h4 := mem_foldl_removeSpans _ _ h5
      have h3 := mem_removeSpans _ _ _ _ _ _ (le_refl _) h4
      have h2 := mem_removeSpans _ _ _ _ _ _ (le_refl _) h3
      have h1 := mem_removeSpans _ _ _ _ _ _ (le_refl _) h2
      exact Or.inl (mem_stripComments _ _ (le_refl _) h1)
    · exact Or.inr h5
  · exact Or.inr h6

theorem pct_not_mem_clean {t : List Char} : '%' ∉ clean_tex_content t := by
  intro hc
  unfold clean_tex_content at hc
  rcases mem_braceToSpace hc with h6 | h6
  · rcases mem_stripCommands _ _ (le_refl _) h6 with h5 | h5
    · have h4 := mem_foldl_removeSpans _ _ h5
      have h3 := mem_removeSpans _ _ _ _ _ _ (le_refl _) h4
      have h2 := mem_removeSpans _ _ _ _ _ _ (le_refl _) h3
      have h1 := mem_removeSpans _ _ _ _ _ _ (le_refl _) h2
      exact pct_not_mem_stripComments _ _ (le_refl _) h1
    · exact absurd h5 (by decide)
  · exact absurd h6 (by decide)

/-- Whether the text contains a backslash immediately followed by an ASCII
letter (the shape the generic command pass rewrites). -/
def hasCmdPair : List Char → Bool
  | [] => false
  | [_] => false
  | c :: d :: rest => (c = '\\' && isAsciiLetter d) || hasCmdPair (d :: rest)

theorem hasCmdPair_cons_false {c : Char} {l : List Char} (h : hasCmdPair (c :: l) = false) :
    hasCmdPair l = false := by
  cases l with
  | nil => rfl
  | cons d rest =>
    rw [hasCmdPair, Bool.or_eq_false_iff] at h
    exact h.2

theorem no_bs_hasCmdPair : ∀ {l : List Char}, '\\' ∉ l → hasCmdPair l = false := by
  intro l
  induction l with
  | nil => intro _; rfl
  | cons c rest ih =>
    intro h
    cases rest with
    | nil => rfl
    | cons d r2 =>
      rw [hasCmdPair, Bool.or_eq_false_iff]
      have hc : c ≠ '\\' := fun he => h (he ▸ List.mem_cons_self c _)
      refine ⟨by simp [hc], ih (fun hm => h (List.mem_cons_of_mem _ hm))⟩

theorem stripCommands_head_not_letter {d : Char} (hd : isAsciiLetter d = false)
    (rest : List Char) : headLetter (stripCommands (d :: rest)) = false := by
  rw [stripCommands_cons]
  by_cases hc : (d = '\\' && headLetter rest) = true
  · rw [if_pos hc]
    rfl
  · rw [if_neg hc]
    simpa [headLetter] using hd

theorem stripCommands_no_pair : ∀ (n : Nat) (l : List Char), l.length ≤ n →
    hasCmdPair (stripCommands l) = false := by
  intro n
  induction n with
  | zero =>
    intro l h1
    have hl : l = [] := List.length_eq_zero.mp (Nat.le_zero.mp h1)
    subst hl
    rfl
  | succ n ih =>
    intro l h1
    cases l with
    | nil => rfl
    | cons c rest =>
      rw [stripCommands_cons]
      by_cases hc : (c = '\\' && headLetter rest) = true
      · rw [if_pos hc]
        have hgoal := ih (rest.dropWhile isAsciiLetter)
          (le_trans (dropWhile_length_le _ _) (by simpa using h1))
        cases hX : stripCommands (rest.dropWhile isAsciiLetter) with
        | nil => rfl
        | cons d r2 =>
          rw [hX] at hgoal
          rw [hasCmdPair, Bool.or_eq_false_iff]
          exact ⟨by simp, hgoal⟩
      · rw [if_neg hc]
        have hrest := ih rest (by simpa using h1)
        cases hX : stripCommands rest with
        | nil => rfl
        | cons d r2 =>
          rw [hX] at hrest
          rw [hasCmdPair, Bool.or_eq_false_iff]
          refine ⟨?_, hrest⟩
          by_cases hcb : c = '\\'
          · subst hcb
            rw [Bool.and_eq_true, not_and] at hc
            have hhl : headLetter rest = false :=
              Bool.eq_false_iff.mpr (hc (by simp))
            cases rest with
            | nil =>
              rw [stripCommands_nil] at hX
              cases hX
            | cons e r3 =>
              have he : isAsciiLetter e = false := by simpa [headLetter] using hhl
              have := stripCommands_head_not_letter he r3
              rw [hX] at this
              simp only [headLetter] at this
              simp [this]
          · simp [hcb]

theorem braceToSpace_no_pair : ∀ {l : List Char}, hasCmdPair l = false →
    hasCmdPair (braceToSpace l) = false := by
  intro l
  induction l with
  | nil => intro _; rfl
  | cons c rest ih =>
    intro h
    cases rest with
    | nil => rfl
    | cons d r2 =>
      rw [hasCmdPair, Bool.or_eq_false_iff] at h
      have hih := ih h.2
      show hasCmdPair (braceChar c :: braceChar d :: List.map braceChar r2) = false
      rw [hasCmdPair, Bool.or_eq_false_iff]
      refine ⟨?_, hih⟩
      by_cases hc1 : braceChar c = '\\'
      · have hc2 : c = '\\' := by
          revert hc1
          unfold braceChar
          split
          · intro hsp; cases hsp
          · exact id
      
        by_cases hd1 : isAsciiLetter (braceChar d) = true
        · have hd2 : isAsciiLetter d = true := by
            revert hd1
            unfold braceChar
            split
            · intro hsp; cases hsp
            · exact id
          rw [hc2] at h
          simp [hd2] at h
        · simp [hc1, hd1]
      · simp [hc1]

theorem stripComments_id {l : List Char} (h : '%' ∉ l) : stripComments l = l :=
  stripComments_no_pct h

theorem removeSpans_id (o : Char) (opRest cl : List Char) (dotall : Bool) (x : Char)
    (hx : x ∈ o :: opRest) : ∀ (l : List Char), x ∉ l →
    removeSpans o opRest cl dotall l = l := by
  intro l
  induction l with
  | nil => intro _; rfl
  | cons c rest ih =>
    intro h
    rw [removeSpans_cons]
    have hp : ¬ (o :: opRest).isPrefixOf (c :: rest) = true := by
      intro hp2
      exact h ((( List.isPrefixOf_iff_prefix.mp hp2).sublist).subset hx)
    rw [if_neg hp, ih (fun hm => h (List.mem_cons_of_mem _ hm))]

theorem stripCommands_id : ∀ {l : List Char}, hasCmdPair l = false → stripCommands l = l := by
  intro l
  induction l with
  | nil => intro _; rfl
  | cons c rest ih =>
    intro h
    rw [stripCommands_cons]
    have hcond : (c = '\\' && headLetter rest) = false := by
      cases rest with
      | nil => simp [headLetter]
      | cons d r2 =>
        rw [hasCmdPair, Bool.or_eq_false_iff] at h
        simpa [headLetter] using h.1
    rw [if_neg (by simp [hcond]), ih (hasCmdPair_cons_false h)]

theorem braceToSpace_id {l : List Char} (h1 : '\x7b' ∉ l) (h2 : '\x7d' ∉ l) :
    braceToSpace l = l := by
  induction l with
  | nil => rfl
  | cons c rest ih =>
    show braceChar c :: List.map braceChar rest = c :: rest
    have hc1 : c ≠ '\x7b' := fun he => h1 (he ▸ List.mem_cons_self c _)
    have hc2 : c ≠ '\x7d' := fun he => h2 (he ▸ List.mem_cons_self c _)
    have hcc : braceChar c = c := by
      unfold braceChar
      rw [if_neg (by simp [hc1, hc2])]
    rw [hcc]
    have := ih (fun hm => h1 (List.mem_cons_of_mem _ hm))
      (fun hm => h2 (List.mem_cons_of_mem _ hm))
    rw [show List.map braceChar rest = braceToSpace rest from rfl, this]

theorem foldl_removeSpans_id : ∀ (cmds : List String) (l : List Char), '\x7b' ∉ l →
    cmds.foldl (fun acc cmd => removeSpans '\\' (cmd.toList ++ ['\x7b']) ['\x7d'] true acc) l
      = l := by
  intro cmds
  induction cmds with
  | nil => intro l _; rfl
  | cons cmd rest ih =>
    intro l h
    rw [List.foldl_cons,
      removeSpans_id '\\' (cmd.toList ++ ['\x7b']) ['\x7d'] true '\x7b' (by simp) l h]
    exact ih l h

theorem clean_of_clean (u : List Char) (f1 : '%' ∉ u) (f2 : '$' ∉ u) (f3 : '[' ∉ u)
    (f4a : '\x7b' ∉ u) (f4b : '\x7d' ∉ u) (f5 : hasCmdPair u = false) :
    clean_tex_content u = u := by
  unfold clean_tex_content
  dsimp only
  rw [stripComments_id f1,
    removeSpans_id '\\' ['['] ['\\', ']'] true '[' (by simp) u f3,
    removeSpans_id '$' ['$'] ['$', '$'] true '$' (by simp) u f2,
    removeSpans_id '$' [] ['$'] false '$' (by simp) u f2,
    foldl_removeSpans_id ignored_commands u f4a,
    stripCommands_id f5]
  exact braceToSpace_id f4a f4b

/-- C4 counterexample: cleaning is not idempotent with respect to token
count: on `$a\cite{q<newline>r} x $`, one cleaning pass removes the
`\cite{...}` argument spanning the newline and exposes a new `$...$` pair,
so counting the once-cleaned text (which cleans a second time) yields
strictly fewer English tokens than counting the raw text. -/
theorem clean_not_idempotent_counterexample :
    (count_words_in_content (clean_tex_content (("$a\\cite\x7bq\nr\x7d x $").toList))).2
      < (count_words_in_content (("$a\\cite\x7bq\nr\x7d x $").toList)).2 := by decide

/-- C4 amended: for inputs containing no `$` and no `[` character (so no
math span can be exposed by a removal), the cleaner is a fixed point after
one pass: cleaning the cleaned text changes nothing, hence the token count
does not change either. -/
theorem clean_idempotent_no_math (t : List Char) (h1 : '$' ∉ t) (h2 : '[' ∉ t) :
    clean_tex_content (clean_tex_content t) = clean_tex_content t
    ∧ count_words_in_content (clean_tex_content t) = count_words_in_content t := by
  have f2 : '$' ∉ clean_tex_content t := fun hm => by
    rcases mem_clean_tex_content hm with h | h
    · exact h1 h
    · exact absurd h (by decide)
  have f3 : '[' ∉ clean_tex_content t := fun hm => by
    rcases mem_clean_tex_content hm with h | h
    · exact h2 h
    · exact absurd h (by decide)
  have f4 : '\x7b' ∉ clean_tex_content t ∧ '\x7d' ∉ clean_tex_content t :=
    braces_not_mem_braceToSpace _
  have f5 : hasCmdPair (clean_tex_content t) = false :=
    braceToSpace_no_pair (stripCommands_no_pair _ _ (le_refl _))
  have hc := clean_of_clean (clean_tex_content t) pct_not_mem_clean f2 f3 f4.1 f4.2 f5
  refine ⟨hc, ?_⟩
  show rawCounts (clean_tex_content (clean_tex_content t)) = rawCounts (clean_tex_content t)
  rw [hc]

theorem clean_idempotent_no_math_witness :
    clean_tex_content (clean_tex_content (("hello world").toList))
        = clean_tex_content (("hello world").toList)
    ∧ count_words_in_content (clean_tex_content (("hello world").toList))
        = count_words_in_content (("hello world").toList) :=
  clean_idempotent_no_math (("hello world").toList) (by decide) (by decide)

/-- The counting rule stated by the specification for plain text, written
from the spec's words: Chinese count is the number of CJK characters, and
English count is the number of whitespace-separated tokens remaining after
replacing CJK characters by spaces and stripping punctuation, punctuation
being every character that is neither alphanumeric nor whitespace. -/
def claimedCounts (content : List Char) : Nat × Nat :=
  ((content.filter isCJK).length,
   countTokens ((content.map (fun c => if isCJK c then ' ' else c)).filter
     (fun c => c.isAlphanum || isSpaceChar c)))

/-- C8 counterexample: `a{b` and `a _ b` contain no LaTeX command (no
backslash), no math delimiter and no comment marker, yet the program
disagrees with the claimed rule on both: the cleaner turns the brace into
a token-splitting space (the program counts 2 words, the claimed rule 1),
and the program's punctuation pass keeps `_` (a `\w` word character)
while the claimed rule strips it as non-alphanumeric non-whitespace (the
program counts 3 words, the claimed rule 2). -/
theorem plain_text_count_counterexample :
    ('\\' ∉ ("a\x7bb").toList ∧ '$' ∉ ("a\x7bb").toList ∧ '%' ∉ ("a\x7bb").toList
      ∧ count_words_in_content (("a\x7bb").toList) = (0, 2)
      ∧ claimedCounts (("a\x7bb").toList) = (0, 1))
    ∧ ('\\' ∉ ("a _ b").toList ∧ '$' ∉ ("a _ b").toList ∧ '%' ∉ ("a _ b").toList
      ∧ '\x7b' ∉ ("a _ b").toList ∧ '\x7d' ∉ ("a _ b").toList
      ∧ count_words_in_content (("a _ b").toList) = (0, 3)
      ∧ claimedCounts (("a _ b").toList) = (0, 2)) := by
  decide

theorem clean_plain {t : List Char} (h1 : '\\' ∉ t) (h2 : '$' ∉ t) (h3 : '%' ∉ t)
    (h4 : '\x7b' ∉ t) (h5 : '\x7d' ∉ t) : clean_tex_content t = t := by
  unfold clean_tex_content
  dsimp only
  rw [stripComments_id h3,
    removeSpans_id '\\' ['['] ['\\', ']'] true '\\' (List.mem_cons_self _ _) t h1,
    removeSpans_id '$' ['$'] ['$', '$'] true '$' (by simp) t h2,
    removeSpans_id '$' [] ['$'] false '$' (by simp) t h2,
    foldl_removeSpans_id ignored_commands t h4,
    stripCommands_id (no_bs_hasCmdPair h1)]
  exact braceToSpace_id h4 h5

/-- C8 amended: for text containing no backslash, no `$`, no `%`, no brace
characters, and no underscore, the program's counts coincide with the
claimed rule: Chinese = number of CJK characters, English = whitespace
tokens after replacing CJK characters by spaces and stripping every
character that is neither alphanumeric nor whitespace. -/
theorem plain_text_count (t : List Char) (h1 : '\\' ∉ t) (h2 : '$' ∉ t) (h3 : '%' ∉ t)
    (h4 : '\x7b' ∉ t) (h5 : '\x7d' ∉ t) (h6 : '_' ∉ t) :
    count_words_in_content t = claimedCounts t := by
  show rawCounts (clean_tex_content t) = claimedCounts t
  rw [clean_plain h1 h2 h3 h4 h5]
  unfold rawCounts claimedCounts
  dsimp only
  have hfilter : (t.map (fun c => if isCJK c then ' ' else c)).filter
        (fun c => isWordChar c || isSpaceChar c)
      = (t.map (fun c => if isCJK c then ' ' else c)).filter
        (fun c => c.isAlphanum || isSpaceChar c) := by
    apply List.filter_congr
    intro c hc
    dsimp only
    obtain ⟨a, ha, hfa⟩ := List.mem_map.mp hc
    by_cases hcjk : isCJK a = true
    · have hsp : c = ' ' := by
        rw [← hfa]
        simp [hcjk]
      subst hsp
      decide
    · have hca : c = a := by
        rw [← hfa]
        simp [hcjk]
      subst hca
      have hne : c ≠ '_' := fun he => h6 (he ▸ ha)
      unfold isWordChar
      simp [hne, hcjk]
  rw [hfilter]

theorem plain_text_count_witness :
    count_words_in_content (("hi 你好 there.").toList)
      = claimedCounts (("hi 你好 there.").toList) :=
  plain_text_count (("hi 你好 there.").toList)
    (by decide) (by decide) (by decide) (by decide) (by decide) (by decide)
